import Mathlib

/-!
Verification of the stock-tracker portfolio service.

This file gives a shallow embedding of the computational core of the
repository — the portfolio valuation engine (src/app/api/portfolio/route.ts),
the history resolver fallback chain (src/app/api/history/route.ts) and the
admin write endpoints (investor creation, allocation add/edit) — and proves
the specification claims C1–C10 against it.

Modelling conventions:
* JS numbers are modelled as `ℚ` (exact arithmetic; the spec states its
  numeric properties "exactly, subject to floating-point tolerance").
* Timestamps (unix seconds) are `Int`; date-string parsing is treated as an
  external input, so allocation records carry the already-parsed epoch value.
* Nullable JS values are `Option`; the network fetches performed by the
  routes are supplied as function-valued inputs, keyed by symbol exactly the
  way the routes key their own requests.
* String case mapping and trimming are embedded structurally on the
  character list so that the kernel can evaluate them.
-/

/-- JavaScript nullish coalescing `a ?? b` on nullable values. -/
def jsNullish {α : Type} (a b : Option α) : Option α :=
  match a with
  | some x => some x
  | none => b

/-- JavaScript `x || 1` on a nullable number: `null` and `0` are falsy, so both
produce the placeholder `1`; any other number is returned unchanged. -/
def jsOr1 (x : Option ℚ) : ℚ :=
  match x with
  | some p => if p = 0 then 1 else p
  | none => 1

/-- JavaScript `String.prototype.toUpperCase` (character-wise case mapping). -/
def jsToUpper (s : String) : String := ⟨s.data.map Char.toUpper⟩

/-- JavaScript `String.prototype.toLowerCase` (character-wise case mapping). -/
def jsToLower (s : String) : String := ⟨s.data.map Char.toLower⟩

/-- JavaScript `String.prototype.trim`: strip leading and trailing whitespace. -/
def jsTrim (s : String) : String :=
  ⟨((s.data.dropWhile Char.isWhitespace).reverse.dropWhile Char.isWhitespace).reverse⟩

/-- Replace every maximal whitespace run by a single dash, as
`replace(/\s+/g, "-")` does on an already-trimmed string.  The boolean records
whether the previous character was part of a whitespace run. -/
def collapseWsAux : Bool → List Char → List Char
  | _, [] => []
  | prevWs, c :: rest =>
    if c.isWhitespace then
      (if prevWs then [] else ['-']) ++ collapseWsAux true rest
    else c :: collapseWsAux false rest

/-- The `slugify` helper, defined identically in src/app/api/portfolio/route.ts
(line 165) and in the admin utils (src/unnamed/part_003 lines 96–98):
`name.trim().toLowerCase().replace(/\s+/g, "-")`. -/
def slugify (name : String) : String :=
  ⟨collapseWsAux false (jsToLower (jsTrim name)).data⟩

/-! ## Portfolio valuation engine (src/app/api/portfolio/route.ts) -/

/-- One candle point as returned by the history fetchers: unix seconds and close. -/
structure SymbolHistoryPoint where
  time : Int
  close : ℚ
deriving DecidableEq

/-- One point of a holding's value series. -/
structure TimeValue where
  time : Int
  value : ℚ
deriving DecidableEq

/-- One allocation of the normalized `investorsSeed` list built by the GET
handler (lines 189–220): `amount` defaults to 0 when the stored record has no
numeric `invested`/`amount`, `shares` is kept only when numeric, and a missing
`dateInvested` has already been replaced by the fallback date, so every seed
allocation carries a (parsed) timestamp. -/
structure SeedAllocation where
  symbol : String
  amount : ℚ
  shares : Option ℚ
  dateInvested : Int
deriving DecidableEq

/-- One investor of the normalized `investorsSeed` list. -/
structure InvestorSeed where
  name : String
  allocations : List SeedAllocation
deriving DecidableEq

/-- The per-symbol record the GET handler stores in its `symbolData` map. -/
structure SymbolData where
  currentPrice : Option ℚ
  startPrice : Option ℚ
  history : List SymbolHistoryPoint
  name : Option String
deriving DecidableEq

/-- The `HoldingValue` record of the portfolio response. -/
structure HoldingValue where
  symbol : String
  name : String
  amountInvested : ℚ
  startPrice : Option ℚ
  currentPrice : Option ℚ
  shares : Option ℚ
  currentValue : Option ℚ
  change : Option ℚ
  changePercent : Option ℚ
  dateInvested : Option Int
  history : List TimeValue
deriving DecidableEq

/-- The `InvestorValue` record of the portfolio response. -/
structure InvestorValue where
  name : String
  slug : String
  totalInvested : ℚ
  currentValue : ℚ
  change : ℚ
  changePercent : ℚ
  holdings : List HoldingValue
  valueHistory : List TimeValue
deriving DecidableEq

/-- The market-data fetches the GET handler awaits, keyed by (uppercased)
symbol exactly as the route keys its requests: `quoteC` is the `c` field of
the Finnhub quote (`none` models a failed fetch or a null field), `history`
the candle series, `profileName` the profile's `name` field. -/
structure MarketFetch where
  quoteC : String → Option ℚ
  history : String → List SymbolHistoryPoint
  profileName : String → Option String

/-- The `getStartPriceForDate` helper (route.ts lines 143–151): first history
point at or after the timestamp, else the first history point, else null. -/
def getStartPriceForDate (history : List SymbolHistoryPoint) (startTimestamp : Int) :
    Option ℚ :=
  match history with
  | [] => none
  | first :: _ =>
    match history.find? (fun point => startTimestamp ≤ point.time) with
    | some point => some point.close
    | none => some first.close

/-- All allocations of the seed, in investor order then allocation order —
the iteration order of the route's nested `forEach` loops. -/
def allSeedAllocations : List InvestorSeed → List SeedAllocation
  | [] => []
  | investor :: rest => investor.allocations ++ allSeedAllocations rest

/-- Deduplication keeping first occurrences, as `Array.from(new Set(xs))` does. -/
def dedupFirstAux (seen : List String) : List String → List String
  | [] => []
  | s :: rest =>
    if s ∈ seen then dedupFirstAux seen rest
    else s :: dedupFirstAux (s :: seen) rest

/-- The route's `symbols` list: uppercased allocation symbols, deduplicated
(lines 232–238). -/
def symbolsOf (seed : List InvestorSeed) : List String :=
  dedupFirstAux [] ((allSeedAllocations seed).map (fun a => jsToUpper a.symbol))

/-- The route's `from` timestamp: earliest `dateInvested` over all allocations
(lines 222–229).  With an empty seed `Math.min()` is `+∞` in JS; no symbol is
fetched in that case, so the value is never consulted and 0 stands in. -/
def fromTs (seed : List InvestorSeed) : Int :=
  (((allSeedAllocations seed).map (fun a => a.dateInvested)).min?).getD 0

/-- Does this allocation supply a cost-basis price for the `priceFromFile`
map (lines 246–257)?  Requires truthy positive shares and positive amount. -/
def hasFilePrice (a : SeedAllocation) : Bool :=
  match a.shares with
  | some s => decide (0 < s) && decide (0 < a.amount)
  | none => false

/-- The cost-basis price `amount / shares` of an allocation (only used when
`hasFilePrice` holds, so the divisor is positive). -/
def filePrice (a : SeedAllocation) : ℚ :=
  match a.shares with
  | some s => a.amount / s
  | none => 0

/-- The route's `priceFromFile` map (lines 246–257): for a symbol, the
cost-basis price of the first allocation of that symbol carrying positive
shares and amount. -/
def priceFromFile (seed : List InvestorSeed) (symbol : String) : Option ℚ :=
  match (allSeedAllocations seed).find?
      (fun a => jsToUpper a.symbol == symbol && hasFilePrice a) with
  | some a => some (filePrice a)
  | none => none

/-- The guard `quote?.c && quote.c > 0 ? quote.c : null`: keep the quote price
only when present and strictly positive (`0` is falsy, non-positive fails
the comparison). -/
def positiveQuote (c : Option ℚ) : Option ℚ :=
  match c with
  | some p => if 0 < p then some p else none
  | none => none

/-- The close of the last history point, `history.at(-1)?.close`. -/
def lastClose (history : List SymbolHistoryPoint) : Option ℚ :=
  (history.getLast?).map (fun p => p.close)

/-- The `SymbolData` record built for one symbol (route.ts lines 259–281). -/
def symbolDataOf (seed : List InvestorSeed) (fetch : MarketFetch) (symbol : String) :
    SymbolData :=
  let history := fetch.history symbol
  let baselinePrice := priceFromFile seed symbol
  { currentPrice :=
      jsNullish (jsNullish (positiveQuote (fetch.quoteC symbol)) (lastClose history))
        baselinePrice
    startPrice := jsNullish (getStartPriceForDate history (fromTs seed)) baselinePrice
    history := history
    name := fetch.profileName symbol }

/-- The `symbolData` JS map: populated for exactly the symbols of `symbolsOf`. -/
def symbolDataMap (seed : List InvestorSeed) (fetch : MarketFetch) (symbol : String) :
    Option SymbolData :=
  if symbol ∈ symbolsOf seed then some (symbolDataOf seed fetch symbol) else none

/-- The non-positive-shares guard
`startPrice && startPrice > 0 ? amount / startPrice : null` (lines 324–326). -/
def derivedShares (startPrice : Option ℚ) (amount : ℚ) : Option ℚ :=
  match startPrice with
  | some p => if 0 < p then some (amount / p) else none
  | none => none

/-- The share count resolution (lines 321–326): keep the persisted count when
truthy and positive, otherwise derive from the start price. -/
def resolveShares (sharesFromFile : Option ℚ) (startPrice : Option ℚ) (amount : ℚ) :
    Option ℚ :=
  match sharesFromFile with
  | some s => if 0 < s then some s else derivedShares startPrice amount
  | none => derivedShares startPrice amount

/-- The percent expression `(change / amount) * 100` (line 347).  The route
computes it unconditionally; when `amount = 0` the JS result is non-finite
(`Infinity`/`NaN`), which `NextResponse.json` serializes as `null`, i.e. an
unresolved field on the wire — modelled as `none`. -/
def jsRatioPercent (change amount : ℚ) : Option ℚ :=
  if amount = 0 then none else some (change / amount * 100)

/-- The holding returned when `symbolData` has no entry for the symbol
(route.ts lines 298–311); note it carries no `dateInvested`. -/
def missingSymbolHolding (upperSymbol : String) (amount : ℚ) : HoldingValue :=
  { symbol := upperSymbol
    name := upperSymbol
    amountInvested := amount
    startPrice := none
    currentPrice := none
    shares := none
    currentValue := none
    change := none
    changePercent := none
    dateInvested := none
    history := [] }

/-- The holding returned when no positive share count resolves (lines 328–342). -/
def unresolvedHolding (upperSymbol : String) (data : SymbolData)
    (startPrice : Option ℚ) (a : SeedAllocation) : HoldingValue :=
  { symbol := upperSymbol
    name := data.name.getD upperSymbol
    amountInvested := a.amount
    startPrice := startPrice
    currentPrice := data.currentPrice
    shares := none
    currentValue := none
    change := none
    changePercent := none
    dateInvested := some a.dateInvested
    history := [] }

/-- The fully valued holding (route.ts lines 344–366). -/
def resolvedHolding (upperSymbol : String) (data : SymbolData)
    (startPrice : Option ℚ) (a : SeedAllocation) (s : ℚ) : HoldingValue :=
  let currentPrice := jsNullish data.currentPrice startPrice
  let currentValue := s * jsOr1 currentPrice
  { symbol := upperSymbol
    name := data.name.getD upperSymbol
    amountInvested := a.amount
    startPrice := startPrice
    currentPrice := currentPrice
    shares := some s
    currentValue := some currentValue
    change := some (currentValue - a.amount)
    changePercent := jsRatioPercent (currentValue - a.amount) a.amount
    dateInvested := some a.dateInvested
    history := data.history.map (fun p => ⟨p.time, p.close * s⟩) }

/-- The allocation's start price (route.ts lines 317–319):
`getStartPriceForDate(data.history, allocationStartTs) ?? data.startPrice`.
Every mapped allocation carries a date (see `SeedAllocation`), so
`allocationStartTs` is its parsed timestamp. -/
def allocStartPrice (data : SymbolData) (a : SeedAllocation) : Option ℚ :=
  jsNullish (getStartPriceForDate data.history a.dateInvested) data.startPrice

/-- The holdings construction of the GET handler (route.ts lines 293–368) for
one allocation. -/
def buildHolding (symbolData : String → Option SymbolData) (a : SeedAllocation) :
    HoldingValue :=
  match symbolData (jsToUpper a.symbol) with
  | none => missingSymbolHolding (jsToUpper a.symbol) a.amount
  | some data =>
    match resolveShares a.shares (allocStartPrice data a) a.amount with
    | some s =>
      if 0 < s then resolvedHolding (jsToUpper a.symbol) data (allocStartPrice data a) a s
      else unresolvedHolding (jsToUpper a.symbol) data (allocStartPrice data a) a
    | none => unresolvedHolding (jsToUpper a.symbol) data (allocStartPrice data a) a

/-- Lookup in the JS `timeline` map (a list of key-value pairs with unique
keys): the value stored under the first matching key, if any. -/
def mapGet : List (Int × ℚ) → Int → Option ℚ
  | [], _ => none
  | e :: rest, t => if e.1 = t then some e.2 else mapGet rest t

/-- Lookup with JS `?? 0`. -/
def mapGetD (timeline : List (Int × ℚ)) (t : Int) : ℚ :=
  (mapGet timeline t).getD 0

/-- `Map.prototype.set`: overwrite an existing key in place, else append. -/
def mapSet (timeline : List (Int × ℚ)) (t : Int) (v : ℚ) : List (Int × ℚ) :=
  match timeline with
  | [] => [(t, v)]
  | e :: rest => if e.1 = t then (t, v) :: rest else e :: mapSet rest t v

/-- One step of the timeline accumulation (route.ts lines 385–390):
`timeline.set(point.time, (timeline.get(point.time) ?? 0) + point.value)`. -/
def addTimelinePoint (timeline : List (Int × ℚ)) (p : TimeValue) : List (Int × ℚ) :=
  mapSet timeline p.time (mapGetD timeline p.time + p.value)

/-- The `timeline` map after folding every point of every holding (lines 384–390). -/
def buildTimeline (holdings : List HoldingValue) : List (Int × ℚ) :=
  holdings.foldl (fun tl h => h.history.foldl addTimelinePoint tl) []

/-- The `valueHistory` array (lines 392–394): timeline entries sorted
ascending by timestamp.  The keys are unique, so the ascending ordering is a
single permutation and insertion sort computes exactly what
`.sort((a, b) => a[0] - b[0])` returns. -/
def valueHistory (holdings : List HoldingValue) : List TimeValue :=
  (List.insertionSort (fun a b => a.1 ≤ b.1) (buildTimeline holdings)).map
    (fun e => ⟨e.1, e.2⟩)

/-- The `InvestorValue` built for one investor (route.ts lines 283–405). -/
def buildInvestor (symbolData : String → Option SymbolData) (investor : InvestorSeed) :
    InvestorValue :=
  let holdings := investor.allocations.map (buildHolding symbolData)
  let totalInvested := holdings.foldl (fun sum h => sum + h.amountInvested) 0
  let currentValue :=
    holdings.foldl (fun sum h => sum + (h.currentValue.getD h.amountInvested)) 0
  let change := currentValue - totalInvested
  { name := investor.name
    slug := slugify investor.name
    totalInvested := totalInvested
    currentValue := currentValue
    change := change
    changePercent := if totalInvested = 0 then 0 else change / totalInvested * 100
    holdings := holdings
    valueHistory := valueHistory holdings }

/-- The investor list of the portfolio GET response (route.ts lines 283–412),
as a function of the normalized seed and the awaited market fetches. -/
def portfolioInvestors (seed : List InvestorSeed) (fetch : MarketFetch) :
    List InvestorValue :=
  seed.map (buildInvestor (symbolDataMap seed fetch))

/-- Comparator for claim C3: the summed value, at one exact timestamp, of all
holdings' series points carrying exactly that timestamp. -/
def holdingsValueAt (holdings : List HoldingValue) (t : Int) : ℚ :=
  (holdings.map
    (fun h => ((h.history.filter (fun p => p.time = t)).map (fun p => p.value)).sum)).sum

/-! ## History resolver (src/app/api/history/route.ts) -/

/-- Number of seconds in a day (the route's `ONE_DAY`). -/
def ONE_DAY : Int := 24 * 60 * 60

/-- The value returned by `fetchHistoryRange`: `points` is `null` on any
failure (non-2xx, malformed payload, transport error), `status` is the HTTP
status of the provider response (500 when the fetch threw). -/
structure RangeResult where
  points : Option (List SymbolHistoryPoint)
  status : Nat
deriving DecidableEq

/-- The quote used by the last-resort fallback (`fetchQuote` of the history
route): the `c` and `pc` fields when numeric. -/
structure QuoteData where
  current : Option ℚ
  prevClose : Option ℚ
deriving DecidableEq

/-- The observable outcome of the history GET: the HTTP status and the
returned series (`none` on the error paths). -/
structure HistoryResponse where
  status : Nat
  history : Option (List SymbolHistoryPoint)
deriving DecidableEq

/-- The route's progressive fallback windows, in days (line 132). -/
def fallbackRanges : List Int := [450, 400, 365, 240, 120, 60]

/-- The keyed-provider fallback loop (history route lines 141–151):
walk the ranges in order, fetching `[now − days·ONE_DAY, now]` at daily
resolution; record the status of every attempt (the last one wins) and stop
at the first attempt returning more than one point. -/
def runRangeFallbacks (fetchRange : Int → RangeResult) (now : Int) :
    List Int → Option Nat → Option (List SymbolHistoryPoint) × Option Nat
  | [], lastStatus => (none, lastStatus)
  | days :: rest, _ =>
    let result := fetchRange (now - days * ONE_DAY)
    let lastStatus := some result.status
    match result.points with
    | some points =>
      if 1 < points.length then (some points, lastStatus)
      else runRangeFallbacks fetchRange now rest lastStatus
    | none => runRangeFallbacks fetchRange now rest lastStatus

/-- The failure classification of lines 169–176: 403 and 429 become 429
(rate-limited), any other recorded status is returned as-is, and a missing
status defaults to 404. -/
def classifyFailureStatus (lastStatus : Option Nat) : Nat :=
  match lastStatus with
  | some s => if s = 403 ∨ s = 429 then 429 else s
  | none => 404

/-- The error response of the history GET when no fallback produced a series. -/
def historyFailure (lastStatus : Option Nat) : HistoryResponse :=
  { status := classifyFailureStatus lastStatus, history := none }

/-- The history GET handler after symbol validation (history route lines
130–182).  `yahoo` is the result of `fetchYahooHistory` (already `none` when
the primary provider failed or returned fewer than 2 points),
`apiKeyConfigured` tells whether `FINNHUB_API_KEY` is set, `fetchRange` is the
keyed candle endpoint keyed by the `from` timestamp, and `quote` the keyed
quote endpoint used by the last-resort two-point synthesis. -/
def historyGET (yahoo : Option (List SymbolHistoryPoint)) (apiKeyConfigured : Bool)
    (fetchRange : Int → RangeResult) (quote : Option QuoteData) (now : Int) :
    HistoryResponse :=
  match yahoo with
  | some h => { status := 200, history := some h }
  | none =>
    if apiKeyConfigured then
      match runRangeFallbacks fetchRange now fallbackRanges none with
      | (some h, _) => { status := 200, history := some h }
      | (none, lastStatus) =>
        match quote with
        | some q =>
          match q.current with
          | some c =>
            { status := 200
              history := some [⟨now - 7 * ONE_DAY, q.prevClose.getD c⟩, ⟨now, c⟩] }
          | none => historyFailure lastStatus
        | none => historyFailure lastStatus
    else historyFailure none

/-! ## Admin write endpoints

The admin routes read one document `{ investors: [...] }` from the store
(`getInvestmentsDoc`, defined in the admin `utils` module) and write back the
whole investor array with a single `updateOne`.  The embedding passes the
stored investor array in and reports the written array (`write = some doc`)
or its absence (`write = none`, no `updateOne` performed).  `requireAdmin`
(the day-keyed cookie gate, an external collaborator per the spec) is
modelled as already passed. -/

/-- A stored allocation record (symbol, invested, shares, dateInvested, id). -/
structure DbAllocation where
  id : Option String
  symbol : String
  invested : ℚ
  shares : ℚ
  dateInvested : String
deriving DecidableEq

/-- A stored investor record. -/
structure DbInvestor where
  name : String
  allocations : List DbAllocation
deriving DecidableEq

/-- The observable outcome of an admin endpoint: HTTP status and the investor
array written by `updateOne`, or `none` when no write happened. -/
structure AdminResult where
  status : Nat
  write : Option (List DbInvestor)
deriving DecidableEq

/-- The `findInvestorIndex` helper of the admin utils (src/unnamed/part_003
lines 100–111): a falsy (empty) slug matches nothing; otherwise the target is
the lowercased slug, and the first investor wins whose trimmed lowercased
name is nonempty and either slugifies to the target or equals it as-is
(`none` for the JS `-1`). -/
def findInvestorIndex (investors : List DbInvestor) (slug : String) : Option Nat :=
  if slug = "" then none
  else
    investors.findIdx? (fun inv =>
      let invName := jsToLower (jsTrim inv.name)
      invName != "" &&
        (slugify invName == jsToLower slug || invName == jsToLower slug))

/-- Replace the investor at an index (the JS in-place mutation followed by
writing the whole array). -/
def modifyInvestorAt (investors : List DbInvestor) (i : Nat)
    (f : DbInvestor → DbInvestor) : List DbInvestor :=
  match investors[i]? with
  | some inv => investors.set i (f inv)
  | none => investors

/-- The `POST /admin/investors` handler (second document of
src/app/api/portfolio/route.ts, lines 418–463): trim the name, reject the
empty name with 400, reject a case-insensitive duplicate with 409 (no write),
else append a fresh investor and write. -/
def postInvestor (investors : List DbInvestor) (rawName : String) : AdminResult :=
  let name := jsTrim rawName
  if name = "" then { status := 400, write := none }
  else
    let lower := jsToLower name
    if investors.any (fun inv => jsToLower inv.name == lower) then
      { status := 409, write := none }
    else
      { status := 200, write := some (investors ++ [{ name := name, allocations := [] }]) }

/-- The `POST .../allocations` handler (src/unnamed/part_002 lines 156–232).
`symbol` is the trimmed uppercased body symbol (empty when absent),
`invested`/`shares` are the `normalizeNumber` results (`none` when missing or
non-finite), `symbolValid` is the outcome of the external `validateSymbol`
quote check, and `freshId` the generated UUID. -/
def postAllocation (investors : List DbInvestor) (slug : String) (symbol : String)
    (invested shares : Option ℚ) (dateInvested : String) (symbolValid : Bool)
    (freshId : String) : AdminResult :=
  match invested, shares with
  | some inv, some sh =>
    if symbol = "" ∨ inv ≤ 0 ∨ sh ≤ 0 then { status := 400, write := none }
    else if ¬ symbolValid then { status := 400, write := none }
    else
      match findInvestorIndex investors slug with
      | none => { status := 404, write := none }
      | some i =>
        let newAllocation : DbAllocation :=
          { id := some freshId, symbol := symbol, invested := inv, shares := sh
            dateInvested := dateInvested }
        { status := 200
          write := some (modifyInvestorAt investors i
            (fun investor => { investor with
              allocations := investor.allocations ++ [newAllocation] })) }
  | _, _ => { status := 400, write := none }

/-- The PATCH body after the handler's field normalization (part_002 lines
244–250): `symbol` is trimmed and uppercased when a string, `invested` and
`shares` distinguish an absent (nullish) field (`none`) from a present one
(`some`, holding the `normalizeNumber` outcome), `allocationIndex` is the
normalized numeric index (non-integer values, which JS would funnel into the
catch-all 500 path, are not modelled — no claim exercises them). -/
structure PatchAllocationBody where
  id : Option String
  allocationIndex : Option Int
  symbol : Option String
  invested : Option (Option ℚ)
  shares : Option (Option ℚ)
  dateInvested : Option String
deriving DecidableEq

/-- The `findAllocationIndex` helper (part_002 lines 141–154): a truthy id
that matches wins, else an in-bounds numeric index, else not found. -/
def findAllocationIndex (allocations : List DbAllocation) (id : Option String)
    (index : Option Int) : Option Nat :=
  let byIndex : Option Nat :=
    match index with
    | some n => if 0 ≤ n ∧ n < allocations.length then some n.toNat else none
    | none => none
  match id with
  | some i =>
    if i = "" then byIndex
    else
      match allocations.findIdx? (fun a => a.id == some i) with
      | some j => some j
      | none => byIndex
  | none => byIndex

/-- Line 287 of part_002: `if (symbol) target.symbol = symbol` — a truthy
(nonempty) symbol overwrites. -/
def patchSymbolStep (t : DbAllocation) (symbol : Option String) : DbAllocation :=
  match symbol with
  | some s => if s ≠ "" then { t with symbol := s } else t
  | none => t

/-- Lines 288–291 of part_002: a present (non-nullish) `invested` whose
`normalizeNumber` is numeric overwrites — with no positivity check. -/
def patchInvestedStep (t : DbAllocation) (invested : Option (Option ℚ)) :
    DbAllocation :=
  match invested with
  | some (some v) => { t with invested := v }
  | _ => t

/-- Lines 292–295 of part_002: the same for `shares`. -/
def patchSharesStep (t : DbAllocation) (shares : Option (Option ℚ)) : DbAllocation :=
  match shares with
  | some (some v) => { t with shares := v }
  | _ => t

/-- Lines 296–298 of part_002: a string date with nonempty trim overwrites. -/
def patchDateStep (t : DbAllocation) (dateInvested : Option String) : DbAllocation :=
  match dateInvested with
  | some d => if jsTrim d ≠ "" then { t with dateInvested := d } else t
  | none => t

/-- Line 299 of part_002: `if (!target.id) target.id = randomUUID()` — a
missing or empty id is filled with a fresh UUID. -/
def ensureId (t : DbAllocation) (freshId : String) : DbAllocation :=
  match t.id with
  | some i => if i = "" then { t with id := some freshId } else t
  | none => { t with id := some freshId }

/-- The field-by-field allocation update of the PATCH handler (part_002 lines
286–299), as the composition of its four mutation statements and the id fill. -/
def applyAllocationPatch (target : DbAllocation) (body : PatchAllocationBody)
    (freshId : String) : DbAllocation :=
  ensureId
    (patchDateStep
      (patchSharesStep
        (patchInvestedStep (patchSymbolStep target body.symbol) body.invested)
        body.shares)
      body.dateInvested)
    freshId

/-- The `PATCH .../allocations` handler (part_002 lines 234–317): locate the
investor by slug and the allocation by id/index (404 when either is missing),
apply the unvalidated field updates, and write the whole investor array. -/
def patchAllocation (investors : List DbInvestor) (slug : String)
    (body : PatchAllocationBody) (freshId : String) : AdminResult :=
  match findInvestorIndex investors slug with
  | none => { status := 404, write := none }
  | some i =>
    match investors[i]? with
    | none => { status := 404, write := none }
    | some investor =>
      match findAllocationIndex investor.allocations body.id body.allocationIndex with
      | none => { status := 404, write := none }
      | some j =>
        match investor.allocations[j]? with
        | none => { status := 404, write := none }
        | some target =>
          let updated := applyAllocationPatch target body freshId
          { status := 200
            write := some (modifyInvestorAt investors i
              (fun inv => { inv with allocations := inv.allocations.set j updated })) }

/-! ## Concrete inputs for the claim witnesses and counterexamples -/

/-- C1 counterexample allocation: positive persisted shares, positive amount. -/
def c1Alloc : SeedAllocation := ⟨"aapl", 3, some 5, 100⟩

/-- C1 counterexample investor. -/
def c1Investor : InvestorSeed := ⟨"Cora", [c1Alloc]⟩

/-- C1 counterexample seed. -/
def c1Seed : List InvestorSeed := [c1Investor]

/-- C1 counterexample fetches: no quote, a one-point history whose close is 0
(as `fetchCandle` produces when the provider's close array is short, line 118). -/
def c1Fetch : MarketFetch :=
  ⟨fun _ => none, fun _ => [⟨50, 0⟩], fun _ => none⟩

/-- C1 witness allocation. -/
def c1wAlloc : SeedAllocation := ⟨"msft", 4, some 2, 100⟩

/-- C1 witness investor. -/
def c1wInvestor : InvestorSeed := ⟨"Mira", [c1wAlloc]⟩

/-- C1 witness seed. -/
def c1wSeed : List InvestorSeed := [c1wInvestor]

/-- C1 witness fetches: a live quote of 3, no history. -/
def c1wFetch : MarketFetch :=
  ⟨fun _ => some 3, fun _ => [], fun _ => none⟩

/-- C2 witness investor: two allocations, one with persisted shares. -/
def c2Investor : InvestorSeed := ⟨"Belle", [⟨"A", 500, some 1, 10⟩, ⟨"B", 300, none, 10⟩]⟩

/-- C2 witness seed. -/
def c2Seed : List InvestorSeed := [c2Investor]

/-- C2 witness fetches (everything unresolved). -/
def c2Fetch : MarketFetch := ⟨fun _ => none, fun _ => [], fun _ => none⟩

/-- C3 witness allocation: 2 persisted shares. -/
def c3Alloc : SeedAllocation := ⟨"A", 6, some 2, 10⟩

/-- C3 witness investor. -/
def c3Investor : InvestorSeed := ⟨"Vera", [c3Alloc]⟩

/-- C3 witness seed. -/
def c3Seed : List InvestorSeed := [c3Investor]

/-- C3 witness fetches: a single history point (time 10, close 3). -/
def c3Fetch : MarketFetch := ⟨fun _ => none, fun _ => [⟨10, 3⟩], fun _ => none⟩

/-- C4 witness allocation — the spec's scenario: 1000 invested, no persisted
shares, purchased 2023-01-01 (epoch 1672531200). -/
def c4Alloc : SeedAllocation := ⟨"AAPL", 1000, none, 1672531200⟩

/-- C4 witness investor. -/
def c4Investor : InvestorSeed := ⟨"Ada", [c4Alloc]⟩

/-- C4 witness seed. -/
def c4Seed : List InvestorSeed := [c4Investor]

/-- C4 witness fetches: history starting 2023-01-03 (epoch 1672704000) at
close 130, no earlier point. -/
def c4Fetch : MarketFetch := ⟨fun _ => none, fun _ => [⟨1672704000, 130⟩], fun _ => none⟩

/-- C5 counterexample allocation: zero invested amount with persisted shares
(reachable: the seed mapping defaults a missing numeric amount to 0). -/
def c5Alloc : SeedAllocation := ⟨"A", 0, some 5, 10⟩

/-- C5 counterexample investor (totalInvested = 0). -/
def c5Investor : InvestorSeed := ⟨"Zed", [c5Alloc]⟩

/-- C5 counterexample seed. -/
def c5Seed : List InvestorSeed := [c5Investor]

/-- C5 counterexample fetches: a live quote of 2. -/
def c5Fetch : MarketFetch := ⟨fun _ => some 2, fun _ => [], fun _ => none⟩

/-- C5 witness investor: positive invested amount. -/
def c5wInvestor : InvestorSeed := ⟨"Pia", [⟨"A", 100, some 1, 10⟩]⟩

/-- C5 witness seed. -/
def c5wSeed : List InvestorSeed := [c5wInvestor]

/-- C5 witness fetches: a live quote of 2. -/
def c5wFetch : MarketFetch := ⟨fun _ => some 2, fun _ => [], fun _ => none⟩

/-- C6 witness: the two points returned by the keyed provider. -/
def c6Points : List SymbolHistoryPoint := [⟨1, 1⟩, ⟨2, 2⟩]

/-- C6 witness range fetcher: fails for the 450- and 400-day windows, returns
exactly two points for the 365-day window. -/
def c6Fetch : Int → RangeResult :=
  fun f => if f = 0 - 365 * ONE_DAY then ⟨some c6Points, 200⟩ else ⟨none, 200⟩

/-- C9 stored allocation. -/
def c9Alloc : DbAllocation := ⟨some "a1", "AAPL", 100, 5, "2024-01-01"⟩

/-- C9 stored investor. -/
def c9Investor : DbInvestor := ⟨"bob", [c9Alloc]⟩

/-- C9 stored investor array. -/
def c9Investors : List DbInvestor := [c9Investor]

/-- C9 PATCH body: sets `invested` to the negative number −5 and nothing else. -/
def c9Body : PatchAllocationBody := ⟨some "a1", none, none, some (some (-5)), none, none⟩

/-- C10 witness allocation. -/
def c10Alloc : SeedAllocation := ⟨"nvda", 50, none, 20⟩

/-- C10 witness investor. -/
def c10Investor : InvestorSeed := ⟨"Dee", [c10Alloc]⟩

/-- C10 witness seed. -/
def c10Seed : List InvestorSeed := [c10Investor]

/-- C10 witness fetches. -/
def c10Fetch : MarketFetch := ⟨fun _ => none, fun _ => [], fun _ => none⟩

/-! ## Helper lemmas -/

theorem foldl_add_eq_sum {α : Type} (f : α → ℚ) (l : List α) (init : ℚ) :
    l.foldl (fun sum x => sum + f x) init = init + (l.map f).sum := by
  induction l generalizing init with
  | nil => simp
  | cons a t ih => simp [ih, add_assoc]

theorem mem_allSeedAllocations {seed : List InvestorSeed} {a : SeedAllocation} :
    a ∈ allSeedAllocations seed ↔ ∃ inv ∈ seed, a ∈ inv.allocations := by
  induction seed with
  | nil => simp [allSeedAllocations]
  | cons inv rest ih =>
    simp only [allSeedAllocations, List.mem_append, ih, List.mem_cons]
    constructor
    · rintro (h | ⟨i, hi, hai⟩)
      · exact ⟨inv, Or.inl rfl, h⟩
      · exact ⟨i, Or.inr hi, hai⟩
    · rintro ⟨i, rfl | hi, hai⟩
      · exact Or.inl hai
      · exact Or.inr ⟨i, hi, hai⟩

theorem mem_dedupFirstAux {x : String} (l : List String) (seen : List String) :
    x ∈ dedupFirstAux seen l ↔ x ∈ l ∧ x ∉ seen := by
  induction l generalizing seen with
  | nil => simp [dedupFirstAux]
  | cons s rest ih =>
    by_cases hs : s ∈ seen
    · rw [dedupFirstAux, if_pos hs, ih]
      by_cases hx : x = s
      · subst hx; simp [hs]
      · simp [hx]
    · rw [dedupFirstAux, if_neg hs]
      simp only [List.mem_cons, ih (s :: seen), List.mem_cons]
      by_cases hx : x = s
      · subst hx; simp [hs]
      · simp [hx]

theorem mem_symbolsOf {seed : List InvestorSeed} {inv : InvestorSeed} {a : SeedAllocation}
    (hinv : inv ∈ seed) (ha : a ∈ inv.allocations) :
    jsToUpper a.symbol ∈ symbolsOf seed := by
  unfold symbolsOf
  rw [mem_dedupFirstAux]
  exact ⟨List.mem_map_of_mem _ (mem_allSeedAllocations.mpr ⟨inv, hinv, ha⟩), by simp⟩

theorem symbolDataMap_of_mem {seed : List InvestorSeed} (fetch : MarketFetch)
    {inv : InvestorSeed} {a : SeedAllocation}
    (hinv : inv ∈ seed) (ha : a ∈ inv.allocations) :
    symbolDataMap seed fetch (jsToUpper a.symbol) =
      some (symbolDataOf seed fetch (jsToUpper a.symbol)) := by
  unfold symbolDataMap
  rw [if_pos (mem_symbolsOf hinv ha)]

theorem buildHolding_cases (sd : String → Option SymbolData) (a : SeedAllocation) :
    (sd (jsToUpper a.symbol) = none ∧
      buildHolding sd a = missingSymbolHolding (jsToUpper a.symbol) a.amount) ∨
    (∃ data, sd (jsToUpper a.symbol) = some data ∧
      ((∃ s, resolveShares a.shares (allocStartPrice data a) a.amount = some s ∧ 0 < s ∧
          buildHolding sd a =
            resolvedHolding (jsToUpper a.symbol) data (allocStartPrice data a) a s) ∨
        buildHolding sd a =
          unresolvedHolding (jsToUpper a.symbol) data (allocStartPrice data a) a)) := by
  cases hdata : sd (jsToUpper a.symbol) with
  | none => exact Or.inl ⟨rfl, by simp [buildHolding, hdata]⟩
  | some data =>
    refine Or.inr ⟨data, rfl, ?_⟩
    cases hres : resolveShares a.shares (allocStartPrice data a) a.amount with
    | none => exact Or.inr (by simp [buildHolding, hdata, hres])
    | some s =>
      by_cases hs : 0 < s
      · exact Or.inl ⟨s, rfl, hs, by simp [buildHolding, hdata, hres, hs]⟩
      · exact Or.inr (by simp [buildHolding, hdata, hres, hs])

theorem mem_portfolioInvestors {seed : List InvestorSeed} {fetch : MarketFetch}
    {iv : InvestorValue} (h : iv ∈ portfolioInvestors seed fetch) :
    ∃ inv, inv ∈ seed ∧ iv = buildInvestor (symbolDataMap seed fetch) inv := by
  rcases List.mem_map.mp h with ⟨inv, hinv, heq⟩
  exact ⟨inv, hinv, heq.symm⟩

theorem buildInvestor_holdings (sd : String → Option SymbolData) (investor : InvestorSeed) :
    (buildInvestor sd investor).holdings = investor.allocations.map (buildHolding sd) := rfl

theorem buildInvestor_totalInvested (sd : String → Option SymbolData)
    (investor : InvestorSeed) :
    (buildInvestor sd investor).totalInvested =
      (buildInvestor sd investor).holdings.foldl (fun sum h => sum + h.amountInvested) 0 := rfl

theorem buildInvestor_currentValue (sd : String → Option SymbolData)
    (investor : InvestorSeed) :
    (buildInvestor sd investor).currentValue =
      (buildInvestor sd investor).holdings.foldl
        (fun sum h => sum + (h.currentValue.getD h.amountInvested)) 0 := rfl

theorem buildInvestor_change (sd : String → Option SymbolData) (investor : InvestorSeed) :
    (buildInvestor sd investor).change =
      (buildInvestor sd investor).currentValue - (buildInvestor sd investor).totalInvested := rfl

theorem buildInvestor_changePercent (sd : String → Option SymbolData)
    (investor : InvestorSeed) :
    (buildInvestor sd investor).changePercent =
      if (buildInvestor sd investor).totalInvested = 0 then 0
      else (buildInvestor sd investor).change / (buildInvestor sd investor).totalInvested
        * 100 := rfl

theorem buildInvestor_valueHistory (sd : String → Option SymbolData)
    (investor : InvestorSeed) :
    (buildInvestor sd investor).valueHistory =
      valueHistory (buildInvestor sd investor).holdings := rfl

theorem mapGet_mapSet (tl : List (Int × ℚ)) (t : Int) (v : ℚ) (t2 : Int) :
    mapGet (mapSet tl t v) t2 = if t2 = t then some v else mapGet tl t2 := by
  induction tl with
  | nil =>
    by_cases h : t2 = t
    · subst h; simp [mapGet, mapSet]
    · simp [mapGet, mapSet, h, Ne.symm h]
  | cons e rest ih =>
    by_cases he : e.1 = t
    · by_cases h2 : t2 = t
      · subst h2; simp [mapGet, mapSet, he]
      · have h3 : ¬ e.1 = t2 := by rw [he]; exact fun hh => h2 hh.symm
        simp [mapGet, mapSet, he, h2, h3, Ne.symm h2]
    · by_cases h3 : e.1 = t2
      · have h4 : ¬ t2 = t := fun hh => he (h3.trans hh)
        simp [mapGet, mapSet, he, h3, h4]
      · simp [mapGet, mapSet, he, h3, ih]

theorem mapGetD_addTimelinePoint (tl : List (Int × ℚ)) (p : TimeValue) (t : Int) :
    mapGetD (addTimelinePoint tl p) t =
      if p.time = t then mapGetD tl t + p.value else mapGetD tl t := by
  unfold addTimelinePoint mapGetD
  rw [mapGet_mapSet]
  by_cases h : p.time = t
  · subst h; simp
  · have h2 : ¬ t = p.time := fun hh => h hh.symm
    simp [h, h2]

theorem mapGetD_foldl_points (points : List TimeValue) (tl : List (Int × ℚ)) (t : Int) :
    mapGetD (points.foldl addTimelinePoint tl) t =
      mapGetD tl t + ((points.filter (fun p => p.time = t)).map (fun p => p.value)).sum := by
  induction points generalizing tl with
  | nil => simp
  | cons p rest ih =>
    rw [List.foldl_cons, ih, mapGetD_addTimelinePoint]
    by_cases h : p.time = t
    · simp only [if_pos h, List.filter_cons, h]
      simp [add_assoc]
    · simp only [if_neg h, List.filter_cons]
      simp [h]

theorem mapGetD_buildTimeline (holdings : List HoldingValue) (t : Int) :
    mapGetD (buildTimeline holdings) t = holdingsValueAt holdings t := by
  suffices h : ∀ tl : List (Int × ℚ),
      mapGetD (holdings.foldl (fun tl h => h.history.foldl addTimelinePoint tl) tl) t =
        mapGetD tl t + holdingsValueAt holdings t by
    rw [buildTimeline, h []]
    simp [mapGetD, mapGet]
  induction holdings with
  | nil => intro tl; simp [holdingsValueAt]
  | cons hd rest ih =>
    intro tl
    rw [List.foldl_cons, ih, mapGetD_foldl_points]
    simp [holdingsValueAt, add_assoc]

theorem mapGet_isSome_mapSet (tl : List (Int × ℚ)) (t : Int) (v : ℚ) (t2 : Int) :
    (mapGet (mapSet tl t v) t2).isSome =
      (decide (t2 = t) || (mapGet tl t2).isSome) := by
  rw [mapGet_mapSet]
  by_cases h : t2 = t <;> simp [h]

theorem mapGet_isSome_foldl_points (points : List TimeValue) (tl : List (Int × ℚ))
    (t : Int) :
    (mapGet (points.foldl addTimelinePoint tl) t).isSome =
      (points.any (fun p => p.time == t) || (mapGet tl t).isSome) := by
  induction points generalizing tl with
  | nil => simp
  | cons p rest ih =>
    rw [List.foldl_cons, ih]
    unfold addTimelinePoint
    rw [mapGet_isSome_mapSet]
    by_cases h : p.time = t
    · simp [h, Bool.or_comm, Bool.or_assoc, Bool.or_left_comm]
    · have h2 : ¬ t = p.time := fun hh => h hh.symm
      have h3 : (p.time == t) = false := beq_eq_false_iff_ne.mpr h
      simp [h2, h3]

theorem mapGet_isSome_buildTimeline (holdings : List HoldingValue) (t : Int) :
    (mapGet (buildTimeline holdings) t).isSome =
      holdings.any (fun h => h.history.any (fun p => p.time == t)) := by
  suffices h : ∀ tl : List (Int × ℚ),
      (mapGet (holdings.foldl (fun tl h => h.history.foldl addTimelinePoint tl) tl) t).isSome =
        (holdings.any (fun h => h.history.any (fun p => p.time == t)) ||
          (mapGet tl t).isSome) by
    rw [buildTimeline, h []]
    simp [mapGet]
  induction holdings with
  | nil => intro tl; simp
  | cons hd rest ih =>
    intro tl
    rw [List.foldl_cons, ih, mapGet_isSome_foldl_points]
    simp [Bool.or_assoc, Bool.or_comm, Bool.or_left_comm]

theorem keys_mapSet_subset (tl : List (Int × ℚ)) (t : Int) (v : ℚ) :
    ((mapSet tl t v).map Prod.fst) ⊆ t :: tl.map Prod.fst := by
  induction tl with
  | nil => simp [mapSet]
  | cons e rest ih =>
    by_cases he : e.1 = t
    · rw [mapSet, if_pos he]
      intro x hx
      rw [List.map_cons] at hx
      rcases List.mem_cons.mp hx with h | h
      · simp [h]
      · exact List.mem_cons_of_mem _ (List.mem_cons_of_mem _ h)
    · rw [mapSet, if_neg he]
      intro x hx
      rw [List.map_cons] at hx
      rcases List.mem_cons.mp hx with h | h
      · simp [h]
      · rcases List.mem_cons.mp (ih h) with h2 | h2
        · simp [h2]
        · exact List.mem_cons_of_mem _ (List.mem_cons_of_mem _ h2)

theorem keys_nodup_mapSet (tl : List (Int × ℚ)) (t : Int) (v : ℚ)
    (h : (tl.map Prod.fst).Nodup) : ((mapSet tl t v).map Prod.fst).Nodup := by
  induction tl with
  | nil => simp [mapSet]
  | cons e rest ih =>
    rw [List.map_cons, List.nodup_cons] at h
    by_cases he : e.1 = t
    · rw [mapSet, if_pos he]
      rw [List.map_cons, List.nodup_cons]
      exact ⟨he ▸ h.1, h.2⟩
    · rw [mapSet, if_neg he]
      rw [List.map_cons, List.nodup_cons]
      refine ⟨fun hmem => ?_, ih h.2⟩
      rcases List.mem_cons.mp (keys_mapSet_subset rest t v hmem) with h2 | h2
      · exact he h2
      · exact h.1 h2

theorem keys_nodup_foldl_points (points : List TimeValue) (tl : List (Int × ℚ))
    (h : (tl.map Prod.fst).Nodup) :
    ((points.foldl addTimelinePoint tl).map Prod.fst).Nodup := by
  induction points generalizing tl with
  | nil => exact h
  | cons p rest ih =>
    rw [List.foldl_cons]
    exact ih _ (keys_nodup_mapSet _ _ _ h)

theorem keys_nodup_buildTimeline (holdings : List HoldingValue) :
    ((buildTimeline holdings).map Prod.fst).Nodup := by
  suffices hgen : ∀ tl : List (Int × ℚ), (tl.map Prod.fst).Nodup →
      ((holdings.foldl (fun tl h => h.history.foldl addTimelinePoint tl) tl).map
        Prod.fst).Nodup by
    exact hgen [] (by simp)
  induction holdings with
  | nil => exact fun tl h => h
  | cons hd rest ih =>
    intro tl h
    rw [List.foldl_cons]
    exact ih _ (keys_nodup_foldl_points _ _ h)

theorem mapGet_eq_of_mem (tl : List (Int × ℚ)) (t : Int) (v : ℚ)
    (hnodup : (tl.map Prod.fst).Nodup) (hmem : (t, v) ∈ tl) :
    mapGet tl t = some v := by
  induction tl with
  | nil => cases hmem
  | cons e rest ih =>
    rw [List.map_cons, List.nodup_cons] at hnodup
    rcases List.mem_cons.mp hmem with h | h
    · subst h; simp [mapGet]
    · have hne : ¬ e.1 = t := fun he =>
        hnodup.1 (he ▸ (List.mem_map_of_mem Prod.fst h : (t, v).1 ∈ rest.map Prod.fst))
      rw [mapGet, if_neg hne]
      exact ih hnodup.2 h

theorem mem_of_mapGet_eq_some (tl : List (Int × ℚ)) (t : Int) (v : ℚ)
    (h : mapGet tl t = some v) : (t, v) ∈ tl := by
  induction tl with
  | nil => cases h
  | cons e rest ih =>
    rw [mapGet] at h
    by_cases he : e.1 = t
    · rw [if_pos he] at h
      have : e = (t, v) := by
        cases e
        simp only [Option.some.injEq] at h
        simp_all
      exact this ▸ List.mem_cons_self _ _
    · rw [if_neg he] at h
      exact List.mem_cons_of_mem _ (ih h)

theorem mem_valueHistory (holdings : List HoldingValue) (e : TimeValue) :
    e ∈ valueHistory holdings ↔ (e.time, e.value) ∈ buildTimeline holdings := by
  unfold valueHistory
  rw [List.mem_map]
  constructor
  · rintro ⟨pair, hmem, rfl⟩
    have h2 := (List.perm_insertionSort (fun a b => a.1 ≤ b.1) (buildTimeline holdings)).mem_iff.mp hmem
    simpa using h2
  · intro hmem
    refine ⟨(e.time, e.value), ?_, rfl⟩
    exact (List.perm_insertionSort (fun a b => a.1 ≤ b.1) (buildTimeline holdings)).mem_iff.mpr hmem

theorem runRangeFallbacks_all_fail (fetchRange : Int → RangeResult) (now : Int)
    (l : List Int) (last : Option Nat)
    (h : ∀ d ∈ l, ∀ p, (fetchRange (now - d * ONE_DAY)).points = some p →
      ¬ 1 < p.length) :
    runRangeFallbacks fetchRange now l last =
      (none,
        match l.getLast? with
        | some d => some ((fetchRange (now - d * ONE_DAY)).status)
        | none => last) := by
  induction l generalizing last with
  | nil => rfl
  | cons d rest ih =>
    have hd := h d (List.mem_cons_self _ _)
    have hrec : runRangeFallbacks fetchRange now (d :: rest) last =
        runRangeFallbacks fetchRange now rest
          (some ((fetchRange (now - d * ONE_DAY)).status)) := by
      rw [runRangeFallbacks]
      cases hp : (fetchRange (now - d * ONE_DAY)).points with
      | none => rfl
      | some p =>
        have := hd p hp
        simp [this]
    rw [hrec, ih _ (fun x hx => h x (List.mem_cons_of_mem _ hx))]
    cases rest with
    | nil => rfl
    | cons r rest2 =>
      rcases Option.isSome_iff_exists.mp
        (List.getLast?_isSome.mpr (List.cons_ne_nil r rest2)) with ⟨x, hx⟩
      rw [List.getLast?_cons_cons, hx]

theorem runRangeFallbacks_first_success (fetchRange : Int → RangeResult) (now : Int)
    (pre : List Int) (d : Int) (post : List Int) (last : Option Nat)
    (pts : List SymbolHistoryPoint)
    (hpre : ∀ x ∈ pre, ∀ p, (fetchRange (now - x * ONE_DAY)).points = some p →
      ¬ 1 < p.length)
    (hd : (fetchRange (now - d * ONE_DAY)).points = some pts)
    (hlen : 1 < pts.length) :
    runRangeFallbacks fetchRange now (pre ++ d :: post) last =
      (some pts, some ((fetchRange (now - d * ONE_DAY)).status)) := by
  induction pre generalizing last with
  | nil =>
    rw [List.nil_append, runRangeFallbacks, hd]
    simp [hlen]
  | cons x rest ih =>
    have hx := hpre x (List.mem_cons_self _ _)
    have hrec : runRangeFallbacks fetchRange now (x :: (rest ++ d :: post)) last =
        runRangeFallbacks fetchRange now (rest ++ d :: post)
          (some ((fetchRange (now - x * ONE_DAY)).status)) := by
      rw [runRangeFallbacks]
      cases hp : (fetchRange (now - x * ONE_DAY)).points with
      | none => rfl
      | some p =>
        have := hx p hp
        simp [this]
    rw [List.cons_append, hrec]
    exact ih _ (fun y hy => hpre y (List.mem_cons_of_mem _ hy))

theorem patchInvestedStep_invested (t : DbAllocation) (v : ℚ) :
    (patchInvestedStep t (some (some v))).invested = v := rfl

theorem patchSharesStep_invested (t : DbAllocation) (sh : Option (Option ℚ)) :
    (patchSharesStep t sh).invested = t.invested := by
  rcases sh with _ | _ | v <;> rfl

theorem patchDateStep_invested (t : DbAllocation) (dd : Option String) :
    (patchDateStep t dd).invested = t.invested := by
  cases dd with
  | none => rfl
  | some d => by_cases h : jsTrim d ≠ "" <;> simp [patchDateStep, h]

theorem ensureId_invested (t : DbAllocation) (freshId : String) :
    (ensureId t freshId).invested = t.invested := by
  cases h : t.id with
  | none => simp [ensureId, h]
  | some i => by_cases hi : i = "" <;> simp [ensureId, h, hi]

theorem applyAllocationPatch_invested (target : DbAllocation)
    (body : PatchAllocationBody) (freshId : String) (v : ℚ)
    (h : body.invested = some (some v)) :
    (applyAllocationPatch target body freshId).invested = v := by
  unfold applyAllocationPatch
  rw [ensureId_invested, patchDateStep_invested, patchSharesStep_invested, h,
    patchInvestedStep_invested]

/-! ## Claim theorems -/

/-- C1 (amended): for every holding produced by the portfolio valuation with a
resolved positive share count, currentValue equals shares × currentPrice
whenever a nonzero current price resolved, change always equals
currentValue − amountInvested, and when the current price is unresolved or
zero the placeholder 1 is used, making currentValue equal the share count. -/
theorem C1_holding_value (seed : List InvestorSeed) (fetch : MarketFetch)
    (iv : InvestorValue) (h : HoldingValue) (s : ℚ)
    (hiv : iv ∈ portfolioInvestors seed fetch) (hh : h ∈ iv.holdings)
    (hs : h.shares = some s) :
    (∀ p : ℚ, h.currentPrice = some p → p ≠ 0 → h.currentValue = some (s * p)) ∧
    ((h.currentPrice = none ∨ h.currentPrice = some 0) → h.currentValue = some s) ∧
    (∀ cv : ℚ, h.currentValue = some cv → h.change = some (cv - h.amountInvested)) := by
  rcases mem_portfolioInvestors hiv with ⟨inv, hinv, rfl⟩
  rw [buildInvestor_holdings] at hh
  rcases List.mem_map.mp hh with ⟨a, ha, rfl⟩
  rcases buildHolding_cases (symbolDataMap seed fetch) a with
    ⟨_, heq⟩ | ⟨data, hdata, ⟨s2, hres, hs2, heq⟩ | heq⟩
  · rw [heq] at hs; simp [missingSymbolHolding] at hs
  · rw [heq] at hs ⊢
    have hss : s2 = s := by simpa [resolvedHolding] using hs
    subst hss
    refine ⟨?_, ?_, ?_⟩
    · intro p hp hp0
      have hcp : jsNullish data.currentPrice (allocStartPrice data a) = some p := by
        simpa [resolvedHolding] using hp
      simp [resolvedHolding, hcp, jsOr1, hp0]
    · intro hcp0
      have : jsNullish data.currentPrice (allocStartPrice data a) = none ∨
          jsNullish data.currentPrice (allocStartPrice data a) = some 0 := by
        rcases hcp0 with hc | hc
        · exact Or.inl (by simpa [resolvedHolding] using hc)
        · exact Or.inr (by simpa [resolvedHolding] using hc)
      rcases this with h0 | h0 <;> simp [resolvedHolding, h0, jsOr1]
    · intro cv hcv
      have hV : s2 * jsOr1 (jsNullish data.currentPrice (allocStartPrice data a)) = cv := by
        simpa [resolvedHolding] using hcv
      simp [resolvedHolding, hV]
  · rw [heq] at hs; simp [unresolvedHolding] at hs

theorem C1_witness :
    (buildHolding (symbolDataMap c1wSeed c1wFetch) c1wAlloc).shares = some 2 ∧
    (buildHolding (symbolDataMap c1wSeed c1wFetch) c1wAlloc).currentPrice = some 3 ∧
    (buildHolding (symbolDataMap c1wSeed c1wFetch) c1wAlloc).currentValue =
      some (2 * 3) := by
  have hm : buildInvestor (symbolDataMap c1wSeed c1wFetch) c1wInvestor ∈
      portfolioInvestors c1wSeed c1wFetch := by
    unfold portfolioInvestors
    exact List.mem_map_of_mem _ (by simp [c1wSeed])
  have hh : buildHolding (symbolDataMap c1wSeed c1wFetch) c1wAlloc ∈
      (buildInvestor (symbolDataMap c1wSeed c1wFetch) c1wInvestor).holdings := by
    rw [buildInvestor_holdings]
    exact List.mem_map_of_mem _ (by simp [c1wInvestor])
  have hs : (buildHolding (symbolDataMap c1wSeed c1wFetch) c1wAlloc).shares = some 2 := rfl
  have hcp : (buildHolding (symbolDataMap c1wSeed c1wFetch) c1wAlloc).currentPrice =
      some 3 := rfl
  exact ⟨hs, hcp,
    (C1_holding_value c1wSeed c1wFetch _ _ 2 hm hh hs).1 3 hcp (by norm_num)⟩

theorem C1_counterexample :
    (buildHolding (symbolDataMap c1Seed c1Fetch) c1Alloc).shares = some 5 ∧
    (buildHolding (symbolDataMap c1Seed c1Fetch) c1Alloc).currentPrice = some 0 ∧
    (buildHolding (symbolDataMap c1Seed c1Fetch) c1Alloc).currentValue = some 5 ∧
    (buildHolding (symbolDataMap c1Seed c1Fetch) c1Alloc).currentValue ≠
      some (5 * 0) := by
  have hcv : (buildHolding (symbolDataMap c1Seed c1Fetch) c1Alloc).currentValue =
      some (5 * 1) := rfl
  refine ⟨rfl, rfl, by rw [hcv]; norm_num, by rw [hcv]; norm_num⟩

/-- C2: for every investor in the portfolio valuation output, totalInvested is
the sum of its holdings' amountInvested, currentValue the sum of
(currentValue if resolved, else amountInvested), and change their difference. -/
theorem C2_investor_totals (seed : List InvestorSeed) (fetch : MarketFetch)
    (iv : InvestorValue) (hiv : iv ∈ portfolioInvestors seed fetch) :
    iv.totalInvested = (iv.holdings.map (fun h => h.amountInvested)).sum ∧
    iv.currentValue =
      (iv.holdings.map (fun h => h.currentValue.getD h.amountInvested)).sum ∧
    iv.change = iv.currentValue - iv.totalInvested := by
  rcases mem_portfolioInvestors hiv with ⟨inv, hinv, rfl⟩
  refine ⟨?_, ?_, rfl⟩
  · rw [buildInvestor_totalInvested, foldl_add_eq_sum, zero_add]
  · rw [buildInvestor_currentValue,
      foldl_add_eq_sum (fun h : HoldingValue => h.currentValue.getD h.amountInvested),
      zero_add]

theorem C2_witness :
    (buildInvestor (symbolDataMap c2Seed c2Fetch) c2Investor).totalInvested =
      ((buildInvestor (symbolDataMap c2Seed c2Fetch) c2Investor).holdings.map
        (fun h => h.amountInvested)).sum ∧
    (buildInvestor (symbolDataMap c2Seed c2Fetch) c2Investor).currentValue =
      ((buildInvestor (symbolDataMap c2Seed c2Fetch) c2Investor).holdings.map
        (fun h => h.currentValue.getD h.amountInvested)).sum ∧
    (buildInvestor (symbolDataMap c2Seed c2Fetch) c2Investor).change =
      (buildInvestor (symbolDataMap c2Seed c2Fetch) c2Investor).currentValue -
        (buildInvestor (symbolDataMap c2Seed c2Fetch) c2Investor).totalInvested := by
  have hm : buildInvestor (symbolDataMap c2Seed c2Fetch) c2Investor ∈
      portfolioInvestors c2Seed c2Fetch := by
    unfold portfolioInvestors
    exact List.mem_map_of_mem _ (by simp [c2Seed])
  exact C2_investor_totals c2Seed c2Fetch _ hm

/-- C10: the per-symbol data map is populated for the uppercased symbol of
every allocation, so the symbolData lookup succeeds for every holding and the
missing-symbol branch (recognizable by its absent dateInvested) is never
taken. -/
theorem C10_symbolData_total (seed : List InvestorSeed) (fetch : MarketFetch)
    (inv : InvestorSeed) (a : SeedAllocation)
    (hinv : inv ∈ seed) (ha : a ∈ inv.allocations) :
    symbolDataMap seed fetch (jsToUpper a.symbol) =
      some (symbolDataOf seed fetch (jsToUpper a.symbol)) ∧
    (buildHolding (symbolDataMap seed fetch) a).dateInvested = some a.dateInvested := by
  have hd := symbolDataMap_of_mem fetch hinv ha
  refine ⟨hd, ?_⟩
  rcases buildHolding_cases (symbolDataMap seed fetch) a with
    ⟨hnone, _⟩ | ⟨data, _, ⟨s, _, _, heq⟩ | heq⟩
  · rw [hd] at hnone; cases hnone
  · rw [heq]; simp [resolvedHolding]
  · rw [heq]; simp [unresolvedHolding]

theorem C10_witness :
    symbolDataMap c10Seed c10Fetch (jsToUpper c10Alloc.symbol) =
      some (symbolDataOf c10Seed c10Fetch (jsToUpper c10Alloc.symbol)) ∧
    (buildHolding (symbolDataMap c10Seed c10Fetch) c10Alloc).dateInvested =
      some c10Alloc.dateInvested :=
  C10_symbolData_total c10Seed c10Fetch c10Investor c10Alloc
    (by simp [c10Seed]) (by simp [c10Investor])

theorem buildHolding_startPrice (sd : String → Option SymbolData) (a : SeedAllocation)
    (data : SymbolData) (hdata : sd (jsToUpper a.symbol) = some data) :
    (buildHolding sd a).startPrice = allocStartPrice data a := by
  rcases buildHolding_cases sd a with ⟨hn, _⟩ | ⟨d2, hd2, ⟨s, _, _, heq⟩ | heq⟩
  · rw [hdata] at hn; cases hn
  · rw [hdata] at hd2
    injection hd2 with hd2
    subst hd2
    rw [heq]; simp [resolvedHolding]
  · rw [hdata] at hd2
    injection hd2 with hd2
    subst hd2
    rw [heq]; simp [unresolvedHolding]

theorem buildHolding_shares_proj (sd : String → Option SymbolData) (a : SeedAllocation)
    (data : SymbolData) (hdata : sd (jsToUpper a.symbol) = some data) :
    (buildHolding sd a).shares =
      match resolveShares a.shares (allocStartPrice data a) a.amount with
      | some s => if 0 < s then some s else none
      | none => none := by
  unfold buildHolding
  rw [hdata]
  cases hres : resolveShares a.shares (allocStartPrice data a) a.amount with
  | none => simp [hres, unresolvedHolding]
  | some s =>
    by_cases hs : 0 < s
    · simp [hres, hs, resolvedHolding]
    · simp [hres, hs, unresolvedHolding]

theorem getStartPriceForDate_find (history : List SymbolHistoryPoint) (ts : Int)
    (pt : SymbolHistoryPoint) (h : history.find? (fun p => ts ≤ p.time) = some pt) :
    getStartPriceForDate history ts = some pt.close := by
  cases history with
  | nil => cases h
  | cons first rest => simp only [getStartPriceForDate, h]

theorem getStartPriceForDate_of_find_none (ts : Int) (first : SymbolHistoryPoint)
    (rest : List SymbolHistoryPoint)
    (h : (first :: rest).find? (fun p => ts ≤ p.time) = none) :
    getStartPriceForDate (first :: rest) ts = some first.close := by
  simp only [getStartPriceForDate, h]

/-- C3: for every investor, each resolved holding's per-point series is its
symbol's history mapped to (time, close × shares), and valueHistory groups
all holdings' points by exact timestamp: every output entry's value is the
sum of the holdings' point values carrying exactly that timestamp (so a
timestamp unique to one holding is summed alone), and a timestamp appears in
the output exactly when some holding's series carries it — no interpolation
or alignment across differing time grids. -/
theorem C3_valueHistory_grouping (seed : List InvestorSeed) (fetch : MarketFetch)
    (iv : InvestorValue) (hiv : iv ∈ portfolioInvestors seed fetch) :
    (∀ h ∈ iv.holdings, ∀ s : ℚ, h.shares = some s →
      h.history = (fetch.history h.symbol).map (fun p => ⟨p.time, p.close * s⟩)) ∧
    (∀ e ∈ iv.valueHistory, e.value = holdingsValueAt iv.holdings e.time) ∧
    (∀ t : Int, (∃ e ∈ iv.valueHistory, e.time = t) ↔
      ∃ h ∈ iv.holdings, ∃ p ∈ h.history, p.time = t) := by
  rcases mem_portfolioInvestors hiv with ⟨inv, hinv, rfl⟩
  refine ⟨?_, ?_, ?_⟩
  · intro h hh s hs
    rw [buildInvestor_holdings] at hh
    rcases List.mem_map.mp hh with ⟨a, ha, rfl⟩
    rcases buildHolding_cases (symbolDataMap seed fetch) a with
      ⟨_, heq⟩ | ⟨data, hdata, ⟨s2, hres, hs2, heq⟩ | heq⟩
    · rw [heq] at hs; simp [missingSymbolHolding] at hs
    · rw [heq] at hs ⊢
      have hss : s2 = s := by simpa [resolvedHolding] using hs
      subst hss
      have hdd : data = symbolDataOf seed fetch (jsToUpper a.symbol) := by
        rw [symbolDataMap_of_mem fetch hinv ha] at hdata
        exact (Option.some.injEq _ _ ▸ hdata.symm :)
      subst hdd
      simp [resolvedHolding, symbolDataOf]
    · rw [heq] at hs; simp [unresolvedHolding] at hs
  · intro e he
    rw [buildInvestor_valueHistory] at he
    have hmem := (mem_valueHistory _ e).mp he
    have hget := mapGet_eq_of_mem _ _ _ (keys_nodup_buildTimeline _) hmem
    rw [← mapGetD_buildTimeline, mapGetD, hget]
    rfl
  · intro t
    rw [buildInvestor_valueHistory]
    constructor
    · rintro ⟨e, he, rfl⟩
      have hmem := (mem_valueHistory _ e).mp he
      have hsome : (mapGet
          (buildTimeline (buildInvestor (symbolDataMap seed fetch) inv).holdings)
          e.time).isSome := by
        rw [mapGet_eq_of_mem _ _ _ (keys_nodup_buildTimeline _) hmem]; rfl
      rw [mapGet_isSome_buildTimeline] at hsome
      rcases List.any_eq_true.mp hsome with ⟨h, hh, hba⟩
      rcases List.any_eq_true.mp hba with ⟨p, hp, hbe⟩
      exact ⟨h, hh, p, hp, eq_of_beq hbe⟩
    · rintro ⟨h, hh, p, hp, rfl⟩
      have hsome : (mapGet
          (buildTimeline (buildInvestor (symbolDataMap seed fetch) inv).holdings)
          p.time).isSome := by
        rw [mapGet_isSome_buildTimeline]
        exact List.any_eq_true.mpr
          ⟨h, hh, List.any_eq_true.mpr ⟨p, hp, by simp⟩⟩
      rcases Option.isSome_iff_exists.mp hsome with ⟨v, hv⟩
      refine ⟨⟨p.time, v⟩, ?_, rfl⟩
      exact (mem_valueHistory _ _).mpr (mem_of_mapGet_eq_some _ _ _ hv)

theorem C3_witness :
    (⟨10, (6 : ℚ)⟩ : TimeValue).value =
      holdingsValueAt
        (buildInvestor (symbolDataMap c3Seed c3Fetch) c3Investor).holdings 10 := by
  have hm : buildInvestor (symbolDataMap c3Seed c3Fetch) c3Investor ∈
      portfolioInvestors c3Seed c3Fetch := by
    unfold portfolioInvestors
    exact List.mem_map_of_mem _ (by simp [c3Seed])
  have hvh : (buildInvestor (symbolDataMap c3Seed c3Fetch) c3Investor).valueHistory =
      [⟨10, 0 + 3 * 2⟩] := rfl
  have he : (⟨10, (6 : ℚ)⟩ : TimeValue) ∈
      (buildInvestor (symbolDataMap c3Seed c3Fetch) c3Investor).valueHistory := by
    rw [hvh]
    norm_num [TimeValue.mk.injEq]
  exact (C3_valueHistory_grouping c3Seed c3Fetch _ hm).2.1 _ he

/-- C4: for every allocation without a positive persisted share count, the
start price is the close of the first history point at or after the
allocation's purchase timestamp, falling back to the earliest history point
(the first one; under the ascending-time invariant it is minimal) when no
point lies at/after that date, and to the cost-basis price recorded at write
time (the `priceFromFile` entry, amount/shares of the first allocation of the
symbol carrying both) when history is empty; when the start price resolves
positive, the derived share count is amountInvested / startPrice, and the
holding reports it whenever it is positive. -/
theorem C4_start_price (seed : List InvestorSeed) (fetch : MarketFetch)
    (inv : InvestorSeed) (a : SeedAllocation)
    (hinv : inv ∈ seed) (ha : a ∈ inv.allocations)
    (hns : ∀ s : ℚ, a.shares = some s → ¬ 0 < s) :
    (∀ pt : SymbolHistoryPoint,
      (fetch.history (jsToUpper a.symbol)).find? (fun p => a.dateInvested ≤ p.time) =
        some pt →
      (buildHolding (symbolDataMap seed fetch) a).startPrice = some pt.close) ∧
    ((fetch.history (jsToUpper a.symbol)).find? (fun p => a.dateInvested ≤ p.time) =
        none →
      ∀ (first : SymbolHistoryPoint) (rest : List SymbolHistoryPoint),
        fetch.history (jsToUpper a.symbol) = first :: rest →
        (buildHolding (symbolDataMap seed fetch) a).startPrice = some first.close ∧
        ((fetch.history (jsToUpper a.symbol)).Pairwise (fun p q => p.time ≤ q.time) →
          ∀ q ∈ fetch.history (jsToUpper a.symbol), first.time ≤ q.time)) ∧
    (fetch.history (jsToUpper a.symbol) = [] →
      (buildHolding (symbolDataMap seed fetch) a).startPrice =
        priceFromFile seed (jsToUpper a.symbol)) ∧
    (∀ sp : ℚ, (buildHolding (symbolDataMap seed fetch) a).startPrice = some sp →
      0 < sp →
      resolveShares a.shares (allocStartPrice
        (symbolDataOf seed fetch (jsToUpper a.symbol)) a) a.amount =
        some (a.amount / sp) ∧
      (0 < a.amount →
        (buildHolding (symbolDataMap seed fetch) a).shares = some (a.amount / sp))) := by
  have hdata := symbolDataMap_of_mem fetch hinv ha
  have hsp := buildHolding_startPrice (symbolDataMap seed fetch) a _ hdata
  have hhist : (symbolDataOf seed fetch (jsToUpper a.symbol)).history =
      fetch.history (jsToUpper a.symbol) := rfl
  refine ⟨?_, ?_, ?_, ?_⟩
  · intro pt hfind
    rw [hsp]
    unfold allocStartPrice
    rw [hhist, getStartPriceForDate_find _ _ _ hfind]
    rfl
  · intro hfind first rest hcons
    constructor
    · rw [hsp]
      unfold allocStartPrice
      rw [hhist, hcons, getStartPriceForDate_of_find_none _ _ _ (hcons ▸ hfind)]
      rfl
    · intro hsort q hq
      rw [hcons] at hsort hq
      rcases List.mem_cons.mp hq with rfl | hq2
      · exact le_refl _
      · exact (List.pairwise_cons.mp hsort).1 q hq2
  · intro hnil
    rw [hsp]
    unfold allocStartPrice
    rw [hhist, hnil]
    show jsNullish none (symbolDataOf seed fetch (jsToUpper a.symbol)).startPrice =
      priceFromFile seed (jsToUpper a.symbol)
    have : (symbolDataOf seed fetch (jsToUpper a.symbol)).startPrice =
        jsNullish (getStartPriceForDate (fetch.history (jsToUpper a.symbol))
          (fromTs seed)) (priceFromFile seed (jsToUpper a.symbol)) := rfl
    rw [jsNullish, this, hnil]
    rfl
  · intro sp hspv hpos
    have hres : resolveShares a.shares (allocStartPrice
        (symbolDataOf seed fetch (jsToUpper a.symbol)) a) a.amount =
        some (a.amount / sp) := by
      have hasp : allocStartPrice (symbolDataOf seed fetch (jsToUpper a.symbol)) a =
          some sp := by rw [← hsp]; exact hspv
      rw [hasp]
      cases hsh : a.shares with
      | none => simp [resolveShares, derivedShares, hpos]
      | some s =>
        have := hns s hsh
        simp [resolveShares, derivedShares, hpos, this]
    refine ⟨hres, fun hamt => ?_⟩
    rw [buildHolding_shares_proj (symbolDataMap seed fetch) a _ hdata, hres]
    simp [div_pos hamt hpos]

theorem C4_witness :
    (buildHolding (symbolDataMap c4Seed c4Fetch) c4Alloc).startPrice = some 130 ∧
    (buildHolding (symbolDataMap c4Seed c4Fetch) c4Alloc).shares =
      some (1000 / 130) := by
  have h := C4_start_price c4Seed c4Fetch c4Investor c4Alloc (by simp [c4Seed])
    (by simp [c4Investor]) (by intro s hs; simp [c4Alloc] at hs)
  have hfind : (c4Fetch.history (jsToUpper c4Alloc.symbol)).find?
      (fun p => c4Alloc.dateInvested ≤ p.time) = some ⟨1672704000, 130⟩ := rfl
  have hsp := h.1 ⟨1672704000, 130⟩ hfind
  refine ⟨hsp, ?_⟩
  have hshares := (h.2.2.2 130 hsp (by norm_num)).2 (by norm_num [c4Alloc])
  simpa [c4Alloc] using hshares

/-- C5 (amended): at holding level, for every resolved valuation,
changePercent is unresolved (a non-finite JS number, serialized null) when
amountInvested = 0 and otherwise equals (change / amountInvested) × 100; at
investor level changePercent is the number 0 — not unresolved — when
totalInvested = 0, and otherwise equals (change / totalInvested) × 100. -/
theorem C5_change_percent (seed : List InvestorSeed) (fetch : MarketFetch)
    (iv : InvestorValue) (hiv : iv ∈ portfolioInvestors seed fetch) :
    (iv.totalInvested = 0 → iv.changePercent = 0) ∧
    (iv.totalInvested ≠ 0 →
      iv.changePercent = iv.change / iv.totalInvested * 100) ∧
    (∀ h ∈ iv.holdings, ∀ ch : ℚ, h.change = some ch →
      (h.amountInvested = 0 → h.changePercent = none) ∧
      (h.amountInvested ≠ 0 →
        h.changePercent = some (ch / h.amountInvested * 100))) := by
  rcases mem_portfolioInvestors hiv with ⟨inv, hinv, rfl⟩
  refine ⟨?_, ?_, ?_⟩
  · intro h0; rw [buildInvestor_changePercent, if_pos h0]
  · intro h0; rw [buildInvestor_changePercent, if_neg h0]
  · intro h hh ch hch
    rw [buildInvestor_holdings] at hh
    rcases List.mem_map.mp hh with ⟨a, ha, rfl⟩
    rcases buildHolding_cases (symbolDataMap seed fetch) a with
      ⟨_, heq⟩ | ⟨data, hdata, ⟨s2, hres, hs2, heq⟩ | heq⟩
    · rw [heq] at hch; simp [missingSymbolHolding] at hch
    · rw [heq] at hch ⊢
      have hcheq : s2 * jsOr1 (jsNullish data.currentPrice (allocStartPrice data a)) -
          a.amount = ch := by
        simpa [resolvedHolding] using hch
      constructor
      · intro h0
        have h0a : a.amount = 0 := by simpa [resolvedHolding] using h0
        simp [resolvedHolding, jsRatioPercent, h0a]
      · intro h0
        have h0a : a.amount ≠ 0 := by simpa [resolvedHolding] using h0
        simp [resolvedHolding, jsRatioPercent, h0a, hcheq]
    · rw [heq] at hch; simp [unresolvedHolding] at hch

theorem C5_witness :
    (buildInvestor (symbolDataMap c5wSeed c5wFetch) c5wInvestor).changePercent =
      (buildInvestor (symbolDataMap c5wSeed c5wFetch) c5wInvestor).change /
        (buildInvestor (symbolDataMap c5wSeed c5wFetch) c5wInvestor).totalInvested
        * 100 := by
  have hm : buildInvestor (symbolDataMap c5wSeed c5wFetch) c5wInvestor ∈
      portfolioInvestors c5wSeed c5wFetch := by
    unfold portfolioInvestors
    exact List.mem_map_of_mem _ (by simp [c5wSeed])
  refine (C5_change_percent c5wSeed c5wFetch _ hm).2.1 ?_
  have h1 : (buildInvestor (symbolDataMap c5wSeed c5wFetch) c5wInvestor).totalInvested =
      0 + 100 := rfl
  rw [h1]; norm_num

theorem C5_counterexample :
    (buildInvestor (symbolDataMap c5Seed c5Fetch) c5Investor).totalInvested = 0 ∧
    (buildInvestor (symbolDataMap c5Seed c5Fetch) c5Investor).change = 10 ∧
    (buildInvestor (symbolDataMap c5Seed c5Fetch) c5Investor).changePercent = 0 := by
  have h1 : (buildInvestor (symbolDataMap c5Seed c5Fetch) c5Investor).totalInvested =
      0 + 0 := rfl
  have h2 : (buildInvestor (symbolDataMap c5Seed c5Fetch) c5Investor).currentValue =
      0 + 5 * 2 := rfl
  refine ⟨by rw [h1]; norm_num, ?_, ?_⟩
  · rw [buildInvestor_change, h1, h2]; norm_num
  · rw [buildInvestor_changePercent, h1]; norm_num

/-- C6: when the primary (no-key) provider yields no usable series (fewer than
2 points) and a keyed provider is configured, the resolver tries the day
ranges 450, 400, 365, 240, 120, 60 in order at daily resolution and returns
the points of the first attempt yielding at least 2 points — in particular a
secondary attempt returning exactly 2 points is returned, not reported
unresolved. -/
theorem C6_range_fallbacks (fetchRange : Int → RangeResult) (quote : Option QuoteData)
    (now : Int) (pre : List Int) (d : Int) (post : List Int)
    (pts : List SymbolHistoryPoint)
    (hsplit : fallbackRanges = pre ++ d :: post)
    (hpre : ∀ x ∈ pre, ∀ p, (fetchRange (now - x * ONE_DAY)).points = some p →
      ¬ 1 < p.length)
    (hd : (fetchRange (now - d * ONE_DAY)).points = some pts)
    (hlen : 1 < pts.length) :
    historyGET none true fetchRange quote now = ⟨200, some pts⟩ := by
  unfold historyGET
  rw [hsplit,
    runRangeFallbacks_first_success fetchRange now pre d post none pts hpre hd hlen]
  rfl

theorem C6_witness : historyGET none true c6Fetch none 0 = ⟨200, some c6Points⟩ := by
  refine C6_range_fallbacks c6Fetch none 0 [450, 400] 365 [240, 120, 60] c6Points rfl
    ?_ rfl (by decide)
  intro x hx p hp
  fin_cases hx <;>
    (norm_num [c6Fetch, ONE_DAY] at hp; exact Option.noConfusion hp)

/-- C7 (amended): when every history fallback step fails, the response carries
no history and its status is derived from the last keyed-provider status (the
60-day attempt): 403 and 429 map to 429 ("temporarily unavailable"), while
any other recorded status is passed through unchanged with the "not found"
message; 404 is used only when no keyed provider is configured, so no status
was recorded. -/
theorem C7_failure_status (fetchRange : Int → RangeResult) (quote : Option QuoteData)
    (now : Int)
    (hall : ∀ d ∈ fallbackRanges, ∀ p,
      (fetchRange (now - d * ONE_DAY)).points = some p → ¬ 1 < p.length)
    (hq : ∀ q, quote = some q → q.current = none) :
    (historyGET none true fetchRange quote now).history = none ∧
    (historyGET none true fetchRange quote now).status =
      (if (fetchRange (now - 60 * ONE_DAY)).status = 403 ∨
          (fetchRange (now - 60 * ONE_DAY)).status = 429 then 429
        else (fetchRange (now - 60 * ONE_DAY)).status) ∧
    historyGET none false fetchRange quote now = ⟨404, none⟩ := by
  have hrun := runRangeFallbacks_all_fail fetchRange now fallbackRanges none hall
  have hlast : fallbackRanges.getLast? = some 60 := rfl
  rw [hlast] at hrun
  have hbody : historyGET none true fetchRange quote now =
      historyFailure (some ((fetchRange (now - 60 * ONE_DAY)).status)) := by
    unfold historyGET
    cases quote with
    | none => rw [hrun]; rfl
    | some q =>
      have hc := hq q rfl
      rw [hrun]
      simp [hc]
  rw [hbody]
  exact ⟨rfl, rfl, rfl⟩

theorem C7_witness :
    (historyGET none true (fun _ => ⟨none, 403⟩) none 0).history = none ∧
    (historyGET none true (fun _ => ⟨none, 403⟩) none 0).status = 429 := by
  have h := C7_failure_status (fun _ => ⟨none, 403⟩) none 0
    (fun d hd p hp => Option.noConfusion hp) (fun q hq => Option.noConfusion hq)
  exact ⟨h.1, by rw [h.2.1]; norm_num⟩

theorem C7_counterexample :
    historyGET none true (fun _ => ⟨none, 500⟩) none 0 = ⟨500, none⟩ ∧
    (500 : Nat) ≠ 404 :=
  ⟨rfl, by norm_num⟩

/-- C8: POST /admin/investors with a trimmed nonempty name that
case-insensitively equals an existing investor's name returns HTTP 409 and
performs no write to the store. -/
theorem C8_duplicate_conflict (investors : List DbInvestor) (rawName : String)
    (inv : DbInvestor) (hmem : inv ∈ investors) (hne : jsTrim rawName ≠ "")
    (hdup : jsToLower inv.name = jsToLower (jsTrim rawName)) :
    postInvestor investors rawName = ⟨409, none⟩ := by
  have hany : investors.any
      (fun i => jsToLower i.name == jsToLower (jsTrim rawName)) = true :=
    List.any_eq_true.mpr ⟨inv, hmem, by simp [hdup]⟩
  simp [postInvestor, hne, hany]

theorem C8_witness : postInvestor [⟨"Ada", []⟩] " ADA" = ⟨409, none⟩ :=
  C8_duplicate_conflict [⟨"Ada", []⟩] " ADA" ⟨"Ada", []⟩ (by simp) (by decide)
    (by decide)

/-- C9 (amended): the add (POST) allocation endpoint validates its input —
symbol present, invested > 0, shares > 0 — and returns HTTP 400 without
writing when any check fails; the edit (PATCH) endpoint performs no such
validation: it applies any present finite numeric invested value, including
non-positive ones, to the stored allocation and reports success. -/
theorem C9_allocation_validation :
    (∀ (investors : List DbInvestor) (slug symbol : String)
        (invested shares : Option ℚ) (dateInvested : String)
        (symbolValid : Bool) (freshId : String),
      (symbol = "" ∨ invested = none ∨ shares = none ∨
        (∀ v : ℚ, invested = some v → v ≤ 0) ∨
        (∀ v : ℚ, shares = some v → v ≤ 0)) →
      postAllocation investors slug symbol invested shares dateInvested symbolValid
        freshId = ⟨400, none⟩) ∧
    (∀ (investors : List DbInvestor) (slug : String) (body : PatchAllocationBody)
        (freshId : String) (i : Nat) (investor : DbInvestor) (j : Nat)
        (target : DbAllocation) (v : ℚ),
      findInvestorIndex investors slug = some i →
      investors[i]? = some investor →
      findAllocationIndex investor.allocations body.id body.allocationIndex = some j →
      investor.allocations[j]? = some target →
      body.invested = some (some v) →
      ∃ written : List DbInvestor,
        patchAllocation investors slug body freshId = ⟨200, some written⟩ ∧
        ∃ investor2 : DbInvestor, written[i]? = some investor2 ∧
        ∃ target2 : DbAllocation, investor2.allocations[j]? = some target2 ∧
          target2.invested = v) := by
  constructor
  · intro investors slug symbol invested shares dateInvested symbolValid freshId hbad
    unfold postAllocation
    cases invested with
    | none => cases shares <;> rfl
    | some inv0 =>
      cases shares with
      | none => rfl
      | some sh0 =>
        have hcond : symbol = "" ∨ inv0 ≤ 0 ∨ sh0 ≤ 0 := by
          rcases hbad with h | h | h | h | h
          · exact Or.inl h
          · exact Option.noConfusion h
          · exact Option.noConfusion h
          · exact Or.inr (Or.inl (h inv0 rfl))
          · exact Or.inr (Or.inr (h sh0 rfl))
        dsimp only
        rw [if_pos hcond]
  · intro investors slug body freshId i investor j target v hfi hgi hfa hga hbody
    have hilen : i < investors.length := by
      rcases List.getElem?_eq_some_iff.mp hgi with ⟨hl, _⟩
      exact hl
    have hjlen : j < investor.allocations.length := by
      rcases List.getElem?_eq_some_iff.mp hga with ⟨hl, _⟩
      exact hl
    unfold patchAllocation
    simp only [hfi, hgi, hfa, hga]
    refine ⟨_, rfl, ?_⟩
    unfold modifyInvestorAt
    rw [hgi]
    refine ⟨_, List.getElem?_set_self hilen, ?_⟩
    refine ⟨_, List.getElem?_set_self hjlen, ?_⟩
    exact applyAllocationPatch_invested target body freshId v hbody

theorem C9_witness :
    postAllocation [] "bob" "" (some 5) (some 2) "2024-01-01" true "fresh" =
      ⟨400, none⟩ ∧
    ∃ written : List DbInvestor,
      patchAllocation c9Investors "bob" c9Body "fresh" = ⟨200, some written⟩ ∧
      ∃ investor2 : DbInvestor, written[0]? = some investor2 ∧
      ∃ target2 : DbAllocation, investor2.allocations[0]? = some target2 ∧
        target2.invested = -5 := by
  constructor
  · exact C9_allocation_validation.1 [] "bob" "" (some 5) (some 2) "2024-01-01" true
      "fresh" (Or.inl rfl)
  · exact C9_allocation_validation.2 c9Investors "bob" c9Body "fresh" 0 c9Investor 0
      c9Alloc (-5) (by decide) rfl (by decide) rfl rfl

theorem C9_counterexample :
    patchAllocation c9Investors "bob" c9Body "fresh" =
      ⟨200, some [⟨"bob", [⟨some "a1", "AAPL", -5, 5, "2024-01-01"⟩]⟩]⟩ ∧
    (200 : Nat) ≠ 400 :=
  ⟨rfl, by norm_num⟩
